import Mathlib

/-!
# Peer identity registry — shallow embedding

A shallow embedding of `src/server/peer.go` (package `server` of bazil):
the peer identity registry (`findPeer`, `GetPeer`, `MakePeer`), the storage
resolver (`OpenKVForPeer`) and the connection establisher (`DialPeer`),
together with proofs of the behavioural claims about them.

Modelling conventions:
* Byte slices (`[]byte`) are `List Nat` of byte values; the bolt buckets are
  association lists from key bytes to value bytes, with unique keys.
* bolt's `Bucket.Get` returns `none` exactly when the key is absent;
  `Bucket.Put` replaces the value of an existing key and otherwise appends.
  bolt keeps keys in ascending byte order, so `Cursor.Last` returns the
  byte-lexicographically greatest key.
* `binary.BigEndian.PutUint32`/`Uint32` become `putUint32`/`getUint32`.
* `proto.Marshal`/`proto.Unmarshal` of `wire.Peer{Id uint32}` become the
  executable protobuf codec `encodePeerMsg`/`decodePeerMsg` (field 1, varint,
  proto3 zero-field omission, uint32 truncation); `wire.PeerStorage`'s
  `Backends` map becomes `decodePeerStorage`, which extracts the backend
  identifiers (map keys) from the length-delimited map-entry encoding.
  Unknown fields are rejected rather than skipped; the store only ever holds
  encodings produced by this package, so the difference is unobservable here.
* Go errors are modelled by the inductive `Err`; distinct `errors.New` values
  and the sentinel errors `ErrPeerNotFound`, `ErrNoStorageForPeer` are
  distinct constructors.
* `DB.View`/`DB.Update` transactions become pure state passing: read-only
  operations take the `DB`, `MakePeer` returns the updated `DB` on success
  (a failed update transaction rolls back, so errors return no state).
-/

abbrev Bytes := List Nat

/-- A bolt bucket: an association list from key bytes to value bytes. -/
abbrev Bucket := List (Bytes × Bytes)

/-- bolt `Bucket.Get`: `nil` (here `none`) exactly when the key is absent. -/
def bget : Bucket → Bytes → Option Bytes
  | [], _ => none
  | (k, v) :: rest, key => if k = key then some v else bget rest key

/-- bolt `Bucket.Put`: replace the value of an existing key, else append. -/
def bput : Bucket → Bytes → Bytes → Bucket
  | [], key, v => [(key, v)]
  | (k, w) :: rest, key, v =>
    if k = key then (key, v) :: rest else (k, w) :: bput rest key v

/-- Byte-lexicographic strict order, the key order of a bolt bucket
(`bytes.Compare`). -/
def bytesLt : Bytes → Bytes → Bool
  | [], [] => false
  | [], _ :: _ => true
  | _ :: _, [] => false
  | a :: as, b :: bs => if a < b then true else if b < a then false else bytesLt as bs

/-- bolt `Cursor.Last`: the greatest key of the bucket in byte order
(`none` on an empty bucket). -/
def lastKey : Bucket → Option Bytes
  | [] => none
  | (k, _) :: rest =>
    match lastKey rest with
    | none => some k
    | some m => if bytesLt m k then some k else some m

/-- `binary.BigEndian.PutUint32`: four big-endian bytes. -/
def putUint32 (n : Nat) : Bytes :=
  [n / 2 ^ 24 % 256, n / 2 ^ 16 % 256, n / 2 ^ 8 % 256, n % 256]

/-- `binary.BigEndian.Uint32`: read four big-endian bytes.  (Go panics on a
slice shorter than four bytes; such keys never occur in the id bucket, and
the model returns `0` there.) -/
def getUint32 : Bytes → Nat
  | b0 :: b1 :: b2 :: b3 :: _ => ((b0 * 256 + b1) * 256 + b2) * 256 + b3
  | _ => 0

/-- Protobuf base-128 varint encoding, structurally recursive on a fuel
bound (any fuel at least the value itself gives the true encoding, since
each emitted byte divides the value by 128). -/
def encodeVarintAux : Nat → Nat → Bytes
  | 0, n => [n % 128]
  | fuel + 1, n =>
    if n < 128 then [n] else (n % 128 + 128) :: encodeVarintAux fuel (n / 128)

/-- Protobuf base-128 varint encoding. -/
def encodeVarint (n : Nat) : Bytes :=
  encodeVarintAux n n

/-- Protobuf varint decoding: the value and the remaining bytes, or `none`
on truncated input. -/
def decodeVarint : Bytes → Option (Nat × Bytes)
  | [] => none
  | b :: rest =>
    if b < 128 then some (b % 128, rest)
    else
      match decodeVarint rest with
      | some (v, r) => some (b % 128 + 128 * v, r)
      | none => none

/-- `proto.Marshal` of `wire.Peer{Id: id}`: proto3 omits a zero field;
otherwise field 1 with wire type 0 (tag byte `0x08`) then the varint. -/
def encodePeerMsg (id : Nat) : Bytes :=
  if id = 0 then [] else 8 :: encodeVarint id

/-- Field-parsing loop of `proto.Unmarshal` for `wire.Peer`; the fuel is an
upper bound on the input length (each step consumes at least the tag byte).
A repeated occurrence of field 1 overwrites the accumulator, and the varint
is truncated to `uint32`. -/
def decodePeerAux : Nat → Bytes → Nat → Option Nat
  | _, [], id => some id
  | 0, _ :: _, _ => none
  | fuel + 1, t :: rest, _ =>
    if t = 8 then
      match decodeVarint rest with
      | some (v, r) => decodePeerAux fuel r (v % 2 ^ 32)
      | none => none
    else none

/-- `proto.Unmarshal` into `wire.Peer`: yields `msg.Id`, or `none` on
malformed bytes. -/
def decodePeerMsg (v : Bytes) : Option Nat :=
  decodePeerAux v.length v 0

/-- Read a length-delimited protobuf field body: varint length then that
many bytes, returning the body and the remainder. -/
def decodeLenPrefixed (l : Bytes) : Option (Bytes × Bytes) :=
  match decodeVarint l with
  | none => none
  | some (len, rest) =>
    if len ≤ rest.length then some (rest.take len, rest.drop len) else none

/-- Key of one `Backends` map entry: field 1 (tag `0x0a`), a length-delimited
string; the entry's value field is ignored, as `OpenKVForPeer` only ranges
over the keys. -/
def decodeEntryKey (entry : Bytes) : Option Bytes :=
  match entry with
  | 10 :: rest =>
    match decodeLenPrefixed rest with
    | some (key, _) => some key
    | none => none
  | _ => none

/-- Field-parsing loop of `proto.Unmarshal` for `wire.PeerStorage`: a
sequence of field-1 (tag `0x0a`) length-delimited map entries, accumulating
the backend identifiers.  The list order stands in for Go's unspecified map
iteration order. -/
def decodePeerStorageAux : Nat → Bytes → List Bytes → Option (List Bytes)
  | _, [], acc => some acc
  | 0, _ :: _, _ => none
  | fuel + 1, t :: rest, acc =>
    if t = 10 then
      match decodeLenPrefixed rest with
      | some (entry, r) =>
        match decodeEntryKey entry with
        | some key => decodePeerStorageAux fuel r (acc ++ [key])
        | none => none
      | none => none
    else none

/-- `proto.Unmarshal` into `wire.PeerStorage`: yields the backend
identifiers of `msg.Backends`, or `none` on malformed bytes. -/
def decodePeerStorage (v : Bytes) : Option (List Bytes) :=
  decodePeerStorageAux v.length v []

/-! ## Errors and data model -/

/-- The Go error values this package can surface.  `peerNotFound` and
`noStorageForPeer` are the sentinels `ErrPeerNotFound` / `ErrNoStorageForPeer`;
`unmarshalPeer` / `unmarshalPeerStorage` carry the bytes that failed
`proto.Unmarshal`; `outOfPeerIDs` is `errors.New("out of peer IDs")`;
`noAddrKnown` is `errors.New("no address known for peer")`;
`handshakeCrypto` / `handshakeIdentityMismatch` are the handshake failure
causes of the transport credential; `backendFailed` stands for a failure of
the backend factory `app.openStorage`. -/
inductive Err where
  | peerNotFound
  | noStorageForPeer
  | unmarshalPeer (bytes : Bytes)
  | unmarshalPeerStorage (bytes : Bytes)
  | outOfPeerIDs
  | noAddrKnown
  | handshakeCrypto
  | handshakeIdentityMismatch
  | backendFailed (backend : Bytes)
  deriving DecidableEq, Repr

deriving instance DecidableEq for Except

/-- A public key (`[ed25519.PublicKeySize]byte`, i.e. 32 bytes); equality is
byte-for-byte. -/
abbrev PubKey := Bytes

/-- `peer.Peer`: the identity record handed to callers (`ID` is a `uint32`). -/
structure Peer where
  id : Nat
  pub : PubKey
  deriving DecidableEq, Repr

/-- The bolt database of `App.DB`, restricted to the four buckets this file
touches: identity records (`bucketPeer`: pub → encoded `wire.Peer`), the id
index (`bucketPeerID`: big-endian uint32 id → pub), address bindings
(`bucketPeerAddr`: pub → address bytes) and storage bindings
(`bucketPeerStorage`: pub → encoded `wire.PeerStorage`). -/
structure DB where
  peer : Bucket
  peerID : Bucket
  peerAddr : Bucket
  peerStorage : Bucket
  deriving DecidableEq, Repr

/-! ## Peer registry: findPeer, GetPeer, MakePeer -/

/-- `App.findPeer`: fetch `bucketPeer[pub]`; `nil` means `ErrPeerNotFound`;
a `proto.Unmarshal` failure is returned as-is; otherwise the record
`{ID: msg.Id, Pub: pub}`. -/
def findPeer (db : DB) (pub : PubKey) : Except Err Peer :=
  match bget db.peer pub with
  | none => .error .peerNotFound
  | some val =>
    match decodePeerMsg val with
    | none => .error (.unmarshalPeer val)
    | some id => .ok ⟨id, pub⟩

/-- `App.GetPeer`: `findPeer` under a read-only `View` transaction. -/
def GetPeer (db : DB) (pub : PubKey) : Except Err Peer :=
  findPeer db pub

/-- `App.MakePeer`: optimistic `GetPeer`; any outcome other than
`ErrPeerNotFound` is returned as-is.  Otherwise an `Update` transaction
re-runs `findPeer` (the race re-check), and if the key is still absent picks
`id :=` (`Uint32` of the id bucket's last cursor key, `0` when empty) `+ 1`
with `uint32` wraparound, fails with "out of peer IDs" when that is zero,
and writes both the id-index entry and the encoded identity record before
returning the new record with the committed state. -/
def MakePeer (db : DB) (pub : PubKey) : Except Err (Peer × DB) :=
  match GetPeer db pub with
  | .ok p => .ok (p, db)
  | .error e =>
    if e = Err.peerNotFound then
      match findPeer db pub with
      | .ok p => .ok (p, db)
      | .error e2 =>
        if e2 = Err.peerNotFound then
          let id0 : Nat :=
            match lastKey db.peerID with
            | none => 0
            | some k => getUint32 k
          let id := (id0 + 1) % 2 ^ 32
          if id = 0 then .error .outOfPeerIDs
          else
            let idKey := putUint32 id
            let buf := encodePeerMsg id
            .ok (⟨id, pub⟩,
              { db with
                peerID := bput db.peerID idKey pub
                peer := bput db.peer pub buf })
        else .error e2
    else .error e

/-! ## Storage resolver: OpenKVForPeer -/

/-- The logical key-value handle returned by the storage resolver: either a
backend handle from the factory, or `kvmulti.New` over a list of handles. -/
inductive KVHandle where
  | backend (name : Bytes)
  | multi (stores : List KVHandle)

/-- The `for backend := range msg.Backends` loop of `OpenKVForPeer`: open
each backend through the factory, aborting on the first failure, and collect
the handles in order. -/
def openBackends (openB : Bytes → Except Err KVHandle) :
    List Bytes → Except Err (List KVHandle)
  | [] => .ok []
  | b :: bs =>
    match openB b with
    | .error e => .error e
    | .ok s =>
      match openBackends openB bs with
      | .error e => .error e
      | .ok ss => .ok (s :: ss)

/-- `App.OpenKVForPeer`: fetch `bucketPeerStorage[pub]` under a `View`
transaction; `nil` means `ErrNoStorageForPeer`; an unmarshal failure is
returned as-is; then every backend of the binding is opened through the
factory (a first failure aborts) and the handles are merged with
`kvmulti.New`.  The backend factory `app.openStorage` lives outside this
file and is passed as `openB`. -/
def OpenKVForPeer (openB : Bytes → Except Err KVHandle) (db : DB)
    (pub : PubKey) : Except Err KVHandle :=
  match bget db.peerStorage pub with
  | none => .error .noStorageForPeer
  | some val =>
    match decodePeerStorage val with
    | none => .error (.unmarshalPeerStorage val)
    | some backends =>
      match openBackends openB backends with
      | .error e => .error e
      | .ok ss => .ok (.multi ss)

/-! ## Connection establisher: DialPeer -/

/-- The `lookup` closure built by `App.DialPeer`: under a `View` transaction
fetch `bucketPeerAddr[pub]`; `nil` means `errors.New("no address known for
peer")`; otherwise return the network unchanged, the stored address, and the
target public key as the identity the far end must present. -/
def dialLookup (db : DB) (pub : PubKey) (network _nominalAddr : Bytes) :
    Except Err (Bytes × Bytes × PubKey) :=
  match bget db.peerAddr pub with
  | none => .error .noAddrKnown
  | some val => .ok (network, val, pub)

/-- Modelled from the spec: the handshake of the `grpcedtls.Authenticator`
credential, whose implementation (`util/grpcedtls`) is outside this file.
"During the transport handshake, after standard cryptographic validation,
the credential verifies that the remote's presented public key equals the
expected `publicKey` byte-for-byte; any mismatch fails the handshake."
`cryptoOK` abstracts the standard cryptographic validation. -/
def credentialHandshake (expected presented : PubKey) (cryptoOK : Bool) :
    Except Err Unit :=
  if cryptoOK = false then .error .handshakeCrypto
  else if presented = expected then .ok () else .error .handshakeIdentityMismatch

/-- Result of one dial attempt: an authenticated connection to the resolved
address, pinned to the expected key, or a terminal failure. -/
inductive DialResult where
  | authenticated (addr : Bytes) (expected : PubKey)
  | failed (e : Err)
  deriving DecidableEq, Repr

/-- A connection is usable only in the `authenticated` state. -/
def DialResult.usable : DialResult → Bool
  | .authenticated _ _ => true
  | .failed _ => false

/-- Outcome of a dial attempt, recording whether a network connection was
ever attempted. -/
structure DialOutcome where
  connectionAttempted : Bool
  result : DialResult
  deriving DecidableEq, Repr

/-- Modelled from the spec: the per-attempt state machine of `DialPeer`
(`Resolving → Handshaking → Authenticated`, or `Failed` from any step),
since the transport machinery (`grpc.Dial` and `grpcedtls`) that invokes the
credential is outside this file.  The address resolution runs the `lookup`
closure from the source; only if it succeeds is a connection attempted and
the credential handshake run against the key the far end presents.  There is
no retry state. -/
def dialAttempt (db : DB) (pub : PubKey) (network nominalAddr : Bytes)
    (presented : PubKey) (cryptoOK : Bool) : DialOutcome :=
  match dialLookup db pub network nominalAddr with
  | .error e => ⟨false, .failed e⟩
  | .ok (_, addr, expected) =>
    match credentialHandshake expected presented cryptoOK with
    | .error e => ⟨true, .failed e⟩
    | .ok _ => ⟨true, .authenticated addr expected⟩

/-! ## Derived definitions used by the statements -/

/-- The id the allocation loop of `MakePeer` starts from: `Uint32` of
`Cursor.Last` in the id bucket, `0` when the bucket is empty. -/
def lastIdOf (b : Bucket) : Nat :=
  match lastKey b with
  | none => 0
  | some k => getUint32 k

/-- The numerically largest id present in the id-index (`0` when empty):
the quantity the spec describes the allocator as reading. -/
def maxIdNum : Bucket → Nat
  | [] => 0
  | (k, _) :: rest => max (getUint32 k) (maxIdNum rest)

/-- A bucket key is a valid id-index key when it is exactly the four-byte
big-endian encoding of its own `Uint32` reading (forcing length four and
byte values below 256, hence a value below `2 ^ 32`). -/
def validKey (k : Bytes) : Prop :=
  putUint32 (getUint32 k) = k

instance (k : Bytes) : Decidable (validKey k) := by
  unfold validKey; infer_instance

/-- Well-formedness of the id bucket: every key is a four-byte big-endian
`uint32`, as written by `MakePeer`. -/
def WFid (b : Bucket) : Prop :=
  ∀ kv ∈ b, validKey kv.1

instance (b : Bucket) : Decidable (WFid b) := by
  unfold WFid; infer_instance

/-- The registry invariant: the id-index and the identity-record bucket are
in bijection.  Every id-index entry `id → pub` has exactly one identity
record under `pub` decoding to that id, and every identity record `pub → v`
decodes to an id whose index entry maps back to `pub`; exactness comes from
the key lists of both buckets being duplicate-free, and id-index keys are
well-formed `uint32` keys. -/
structure RegistryInv (db : DB) : Prop where
  idKeysValid : WFid db.peerID
  idKeysNodup : (db.peerID.map Prod.fst).Nodup
  peerKeysNodup : (db.peer.map Prod.fst).Nodup
  idToPeer : ∀ kv ∈ db.peerID,
    ∃ v, bget db.peer kv.2 = some v ∧ decodePeerMsg v = some (getUint32 kv.1)
  peerToId : ∀ kv ∈ db.peer,
    ∃ i, i < 2 ^ 32 ∧ decodePeerMsg kv.2 = some i ∧
      bget db.peerID (putUint32 i) = some kv.1

/-! ## Helper lemmas: big-endian uint32 keys -/

theorem getUint32_putUint32 (n : Nat) : getUint32 (putUint32 n) = n % 2 ^ 32 := by
  simp only [putUint32, getUint32]
  omega

theorem validKey_putUint32 (n : Nat) : validKey (putUint32 n) := by
  unfold validKey
  rw [getUint32_putUint32]
  simp only [putUint32, List.cons.injEq, and_true]
  omega

theorem validKey_lt {k : Bytes} (h : validKey k) : getUint32 k < 2 ^ 32 := by
  have h2 : getUint32 (putUint32 (getUint32 k)) = getUint32 k := by rw [h]
  rw [getUint32_putUint32] at h2
  omega

theorem bytesLt_putUint32 {a b : Nat} (ha : a < 2 ^ 32) (hb : b < 2 ^ 32) :
    bytesLt (putUint32 a) (putUint32 b) = true ↔ a < b := by
  simp only [putUint32, bytesLt]
  split_ifs <;> simp_all <;> omega

/-! ## Helper lemmas: cursor last vs numeric maximum -/

theorem lastKey_eq_none {b : Bucket} : lastKey b = none ↔ b = [] := by
  cases b with
  | nil => simp [lastKey]
  | cons kv rest =>
    obtain ⟨k, v⟩ := kv
    simp only [lastKey]
    cases lastKey rest with
    | none => simp
    | some m => simp only []; split <;> simp

theorem lastKey_mem {b : Bucket} {m : Bytes} (h : lastKey b = some m) :
    ∃ v, (m, v) ∈ b := by
  induction b with
  | nil => simp [lastKey] at h
  | cons kv rest ih =>
    obtain ⟨k, v⟩ := kv
    simp only [lastKey] at h
    cases hrest : lastKey rest with
    | none =>
      rw [hrest] at h
      simp only [Option.some.injEq] at h
      exact ⟨v, by simp [h.symm]⟩
    | some m2 =>
      rw [hrest] at h
      by_cases hlt : bytesLt m2 k = true
      · simp only [hlt, if_true, Option.some.injEq] at h
        exact ⟨v, by simp [h.symm]⟩
      · simp only [hlt, if_false, Option.some.injEq] at h
        obtain ⟨w, hw⟩ := ih (h ▸ hrest)
        exact ⟨w, by simp [hw]⟩

theorem mem_le_maxIdNum {b : Bucket} {k v : Bytes} (h : (k, v) ∈ b) :
    getUint32 k ≤ maxIdNum b := by
  induction b with
  | nil => simp at h
  | cons kv rest ih =>
    obtain ⟨k2, v2⟩ := kv
    simp only [List.mem_cons] at h
    rcases h with h | h
    · simp only [Prod.mk.injEq] at h
      simp [maxIdNum, h.1]
    · exact le_trans (ih h) (by simp [maxIdNum])

theorem maxIdNum_lt {b : Bucket} (h : WFid b) : maxIdNum b < 2 ^ 32 := by
  induction b with
  | nil => simp [maxIdNum]
  | cons kv rest ih =>
    obtain ⟨k, v⟩ := kv
    have hk : validKey k := h (k, v) (by simp)
    have hrest : WFid rest := fun x hx => h x (by simp [hx])
    simp only [maxIdNum, max_lt_iff]
    exact ⟨validKey_lt hk, ih hrest⟩

theorem lastIdOf_eq_maxIdNum {b : Bucket} (h : WFid b) :
    lastIdOf b = maxIdNum b := by
  induction b with
  | nil => rfl
  | cons kv rest ih =>
    obtain ⟨k, v⟩ := kv
    have hk : validKey k := h (k, v) (by simp)
    have hrest : WFid rest := fun x hx => h x (by simp [hx])
    have ihr := ih hrest
    cases hlast : lastKey rest with
    | none =>
      have hnil := lastKey_eq_none.mp hlast
      subst hnil
      simp [lastIdOf, lastKey, maxIdNum]
    | some m =>
      have hm : validKey m := by
        obtain ⟨w, hw⟩ := lastKey_mem hlast
        exact hrest (m, w) hw
      have ihr2 : getUint32 m = maxIdNum rest := by
        rw [lastIdOf, hlast] at ihr
        exact ihr
      have hiff : bytesLt m k = true ↔ getUint32 m < getUint32 k := by
        have hiff0 := bytesLt_putUint32 (validKey_lt hm) (validKey_lt hk)
        rw [hm, hk] at hiff0
        exact hiff0
      cases hlt : bytesLt m k with
      | true =>
        have hmk : getUint32 m < getUint32 k := hiff.mp hlt
        simp [lastIdOf, lastKey, hlast, hlt, maxIdNum]
        omega
      | false =>
        have hmk : ¬ getUint32 m < getUint32 k := fun hc => by
          rw [hiff.mpr hc] at hlt
          simp at hlt
        simp [lastIdOf, lastKey, hlast, hlt, maxIdNum]
        omega

/-! ## Helper lemmas: buckets -/

theorem bget_bput (b : Bucket) (k v k2 : Bytes) :
    bget (bput b k v) k2 = if k = k2 then some v else bget b k2 := by
  induction b with
  | nil => simp [bput, bget]
  | cons kv rest ih =>
    obtain ⟨k3, v3⟩ := kv
    by_cases h3 : k3 = k
    · subst h3
      by_cases h2 : k3 = k2 <;> simp [bput, bget, h2]
    · by_cases h2 : k3 = k2
      · subst h2
        have : ¬ k = k3 := fun hc => h3 hc.symm
        simp [bput, bget, h3, this]
      · simp [bput, bget, h3, h2, ih]

theorem bget_eq_none_iff {b : Bucket} {key : Bytes} :
    bget b key = none ↔ ∀ kv ∈ b, kv.1 ≠ key := by
  induction b with
  | nil => simp [bget]
  | cons kv rest ih =>
    obtain ⟨k, v⟩ := kv
    by_cases h : k = key
    · subst h
      simp [bget]
    · simp [bget, h, ih]

theorem bget_some_mem {b : Bucket} {key v : Bytes} (h : bget b key = some v) :
    (key, v) ∈ b := by
  induction b with
  | nil => simp [bget] at h
  | cons kv rest ih =>
    obtain ⟨k, w⟩ := kv
    by_cases hk : k = key
    · subst hk
      simp [bget] at h
      simp [h]
    · simp [bget, hk] at h
      simp [ih h]

theorem bput_fresh {b : Bucket} {k : Bytes} (v : Bytes)
    (h : bget b k = none) : bput b k v = b ++ [(k, v)] := by
  induction b with
  | nil => simp [bput]
  | cons kv rest ih =>
    obtain ⟨k2, v2⟩ := kv
    by_cases h2 : k2 = k
    · subst h2
      simp [bget] at h
    · simp [bget, h2] at h
      simp [bput, h2, ih h]

/-! ## Helper lemmas: codec roundtrips -/

theorem decodeVarint_encodeVarintAux (fuel : Nat) :
    ∀ n rest, n ≤ fuel →
      decodeVarint (encodeVarintAux fuel n ++ rest) = some (n, rest) := by
  induction fuel with
  | zero =>
    intro n rest hn
    have h0 : n = 0 := Nat.le_zero.mp hn
    subst h0
    simp [encodeVarintAux, decodeVarint]
  | succ fuel ih =>
    intro n rest hn
    by_cases h : n < 128
    · rw [encodeVarintAux]
      simp [h, decodeVarint, Nat.mod_eq_of_lt h]
    · rw [encodeVarintAux]
      simp only [h, if_false, List.cons_append, decodeVarint]
      have h1 : ¬ n % 128 + 128 < 128 := by omega
      simp only [h1, if_false]
      rw [ih (n / 128) rest (by omega)]
      have h2 : (n % 128 + 128) % 128 = n % 128 := by omega
      simp only [h2, Option.some.injEq, Prod.mk.injEq]
      exact ⟨by omega, trivial⟩

theorem decodeVarint_encodeVarint (n : Nat) (rest : Bytes) :
    decodeVarint (encodeVarint n ++ rest) = some (n, rest) :=
  decodeVarint_encodeVarintAux n n rest (Nat.le_refl n)

theorem decodePeerMsg_encodePeerMsg {i : Nat} (h : i < 2 ^ 32) :
    decodePeerMsg (encodePeerMsg i) = some i := by
  by_cases h0 : i = 0
  · subst h0
    rfl
  · unfold encodePeerMsg
    simp only [h0, if_false]
    unfold decodePeerMsg
    simp only [List.length_cons, decodePeerAux]
    have henc := decodeVarint_encodeVarint i []
    rw [List.append_nil] at henc
    have hmod : i % 2 ^ 32 = i := Nat.mod_eq_of_lt h
    simp [henc, decodePeerAux, hmod]
    omega

/-! ## Helper lemmas: the creation branch of MakePeer -/

theorem findPeer_of_absent {db : DB} {pub : PubKey}
    (habs : bget db.peer pub = none) :
    findPeer db pub = .error .peerNotFound := by
  simp [findPeer, habs]

theorem makePeer_creation_ok {db : DB} {pub : PubKey}
    (habs : bget db.peer pub = none)
    (hno : (lastIdOf db.peerID + 1) % 2 ^ 32 ≠ 0) :
    MakePeer db pub = .ok (⟨(lastIdOf db.peerID + 1) % 2 ^ 32, pub⟩,
      { db with
        peerID := bput db.peerID
          (putUint32 ((lastIdOf db.peerID + 1) % 2 ^ 32)) pub
        peer := bput db.peer pub
          (encodePeerMsg ((lastIdOf db.peerID + 1) % 2 ^ 32)) }) := by
  have hfind := findPeer_of_absent habs
  unfold MakePeer GetPeer
  rw [hfind]
  simp only [show (match lastKey db.peerID with
      | none => 0
      | some k => getUint32 k) = lastIdOf db.peerID from rfl]
  simp [hno]
  omega

theorem makePeer_creation_err {db : DB} {pub : PubKey}
    (habs : bget db.peer pub = none)
    (hwrap : (lastIdOf db.peerID + 1) % 2 ^ 32 = 0) :
    MakePeer db pub = .error .outOfPeerIDs := by
  have hfind := findPeer_of_absent habs
  unfold MakePeer GetPeer
  rw [hfind]
  simp only [show (match lastKey db.peerID with
      | none => 0
      | some k => getUint32 k) = lastIdOf db.peerID from rfl]
  simp [hwrap]
  omega

/-! ## Helper lemmas: the registry invariant -/

theorem findPeer_notFound_iff {db : DB} {pub : PubKey} :
    findPeer db pub = .error .peerNotFound ↔ bget db.peer pub = none := by
  unfold findPeer
  cases hget : bget db.peer pub with
  | none => simp
  | some v =>
    cases hdec : decodePeerMsg v with
    | none => simp [hdec]
    | some i => simp [hdec]

theorem registryInv_extend {db : DB} {pub : PubKey} {id : Nat}
    (hinv : RegistryInv db) (hidlt : id < 2 ^ 32)
    (habs : bget db.peer pub = none)
    (hfreshID : bget db.peerID (putUint32 id) = none) :
    RegistryInv { db with
      peerID := bput db.peerID (putUint32 id) pub
      peer := bput db.peer pub (encodePeerMsg id) } := by
  have hID2 : bput db.peerID (putUint32 id) pub =
      db.peerID ++ [(putUint32 id, pub)] := bput_fresh _ hfreshID
  have hP2 : bput db.peer pub (encodePeerMsg id) =
      db.peer ++ [(pub, encodePeerMsg id)] := bput_fresh _ habs
  have hidkey : getUint32 (putUint32 id) = id := by
    rw [getUint32_putUint32]
    exact Nat.mod_eq_of_lt hidlt
  constructor
  · -- id-index keys stay valid uint32 keys
    intro kv hkv
    rw [show ({ db with
        peerID := bput db.peerID (putUint32 id) pub
        peer := bput db.peer pub (encodePeerMsg id) } : DB).peerID =
      bput db.peerID (putUint32 id) pub from rfl, hID2] at hkv
    rcases List.mem_append.mp hkv with hold | hnew
    · exact hinv.idKeysValid kv hold
    · rw [List.mem_singleton.mp hnew]
      exact validKey_putUint32 id
  · -- id-index keys stay duplicate-free
    show ((bput db.peerID (putUint32 id) pub).map Prod.fst).Nodup
    have hnotin : putUint32 id ∉ db.peerID.map Prod.fst := by
      intro hmem
      obtain ⟨kv, hkv, hfst⟩ := List.mem_map.mp hmem
      exact (bget_eq_none_iff.mp hfreshID kv hkv) hfst
    rw [hID2, List.map_append]
    simp [List.nodup_append, hinv.idKeysNodup, hnotin]
  · -- identity-record keys stay duplicate-free
    show ((bput db.peer pub (encodePeerMsg id)).map Prod.fst).Nodup
    have hnotin : pub ∉ db.peer.map Prod.fst := by
      intro hmem
      obtain ⟨kv, hkv, hfst⟩ := List.mem_map.mp hmem
      exact (bget_eq_none_iff.mp habs kv hkv) hfst
    rw [hP2, List.map_append]
    simp [List.nodup_append, hinv.peerKeysNodup, hnotin]
  · -- every id-index entry has its identity record
    intro kv hkv
    show ∃ v, bget (bput db.peer pub (encodePeerMsg id)) kv.2 = some v ∧
      decodePeerMsg v = some (getUint32 kv.1)
    rw [show ({ db with
        peerID := bput db.peerID (putUint32 id) pub
        peer := bput db.peer pub (encodePeerMsg id) } : DB).peerID =
      bput db.peerID (putUint32 id) pub from rfl, hID2] at hkv
    rcases List.mem_append.mp hkv with hold | hnew
    · obtain ⟨v, hv, hdv⟩ := hinv.idToPeer kv hold
      have hne : ¬ pub = kv.2 := by
        intro he
        rw [← he] at hv
        rw [habs] at hv
        exact absurd hv (by simp)
      refine ⟨v, ?_, hdv⟩
      rw [bget_bput, if_neg hne]
      exact hv
    · rw [List.mem_singleton.mp hnew]
      refine ⟨encodePeerMsg id, ?_, ?_⟩
      · rw [bget_bput, if_pos rfl]
      · rw [hidkey]
        exact decodePeerMsg_encodePeerMsg hidlt
  · -- every identity record has its id-index entry
    intro kv hkv
    show ∃ i, i < 2 ^ 32 ∧ decodePeerMsg kv.2 = some i ∧
      bget (bput db.peerID (putUint32 id) pub) (putUint32 i) = some kv.1
    rw [show ({ db with
        peerID := bput db.peerID (putUint32 id) pub
        peer := bput db.peer pub (encodePeerMsg id) } : DB).peer =
      bput db.peer pub (encodePeerMsg id) from rfl, hP2] at hkv
    rcases List.mem_append.mp hkv with hold | hnew
    · obtain ⟨i, hilt, hdec, hidx⟩ := hinv.peerToId kv hold
      have hne : ¬ putUint32 id = putUint32 i := by
        intro he
        have : getUint32 (putUint32 id) = getUint32 (putUint32 i) := by rw [he]
        rw [hidkey, getUint32_putUint32, Nat.mod_eq_of_lt hilt] at this
        subst this
        rw [hfreshID] at hidx
        exact absurd hidx (by simp)
      refine ⟨i, hilt, hdec, ?_⟩
      rw [bget_bput, if_neg hne]
      exact hidx
    · rw [List.mem_singleton.mp hnew]
      refine ⟨id, hidlt, decodePeerMsg_encodePeerMsg hidlt, ?_⟩
      rw [bget_bput, if_pos rfl]

/-! ## Claims -/

/-- C4: for every public key whose identity record already exists, `MakePeer`
returns exactly the record `GetPeer` returns without touching the store: the
optimistic phase succeeds and the function returns before opening the write
transaction, so the database is unchanged. -/
theorem makePeer_idempotent (db : DB) (pub : PubKey) (p : Peer)
    (h : GetPeer db pub = .ok p) :
    MakePeer db pub = .ok (p, db) := by
  unfold MakePeer
  rw [h]

/-- Witness for C4 at a one-record store: re-asking for the registered key
`[1]` (id 1) returns the identical record and the identical database. -/
theorem makePeer_idempotent_witness :
    MakePeer ⟨[([1], [8, 1])], [([0, 0, 0, 1], [1])], [], []⟩ [1] =
      .ok (⟨1, [1]⟩, ⟨[([1], [8, 1])], [([0, 0, 0, 1], [1])], [], []⟩) :=
  makePeer_idempotent ⟨[([1], [8, 1])], [([0, 0, 0, 1], [1])], [], []⟩ [1]
    ⟨1, [1]⟩ rfl

/-- C3: `GetPeer` on a key with no identity record yields `ErrPeerNotFound`;
`OpenKVForPeer` on a key that has an identity record but no storage binding
yields `ErrNoStorageForPeer`; and the two error values are distinct. -/
theorem notFound_distinction :
    (∀ db : DB, ∀ pub : PubKey, bget db.peer pub = none →
      GetPeer db pub = .error .peerNotFound) ∧
    (∀ openB : Bytes → Except Err KVHandle, ∀ db : DB, ∀ pub v : Bytes,
      bget db.peer pub = some v → bget db.peerStorage pub = none →
      OpenKVForPeer openB db pub = .error .noStorageForPeer) ∧
    Err.noStorageForPeer ≠ Err.peerNotFound := by
  refine ⟨?_, ?_, by decide⟩
  · intro db pub h
    exact findPeer_of_absent h
  · intro openB db pub v hv hs
    unfold OpenKVForPeer
    rw [hs]

/-- Witness for C3: the empty store has no record for `[1]`, so lookup says
peer-not-found; a store that registers `[1]` but offers it no storage says
no-storage-for-peer. -/
theorem notFound_distinction_witness :
    GetPeer ⟨[], [], [], []⟩ [1] = .error .peerNotFound ∧
    OpenKVForPeer (fun bb => .error (.backendFailed bb))
      ⟨[([1], [8, 1])], [([0, 0, 0, 1], [1])], [], []⟩ [1] =
      .error .noStorageForPeer :=
  ⟨notFound_distinction.1 ⟨[], [], [], []⟩ [1] (by decide),
   notFound_distinction.2.1 (fun bb => .error (.backendFailed bb))
     ⟨[([1], [8, 1])], [([0, 0, 0, 1], [1])], [], []⟩ [1] [8, 1]
     (by decide) (by decide)⟩

/-- C8: when the stored identity record fails to decode, `GetPeer` returns
the decode error itself, carrying the corrupt bytes — a value distinct from
`ErrPeerNotFound` — rather than ignoring it or substituting a default. -/
theorem getPeer_decode_error (db : DB) (pub : PubKey) (v : Bytes)
    (hget : bget db.peer pub = some v) (hdec : decodePeerMsg v = none) :
    GetPeer db pub = .error (.unmarshalPeer v) ∧
    Err.unmarshalPeer v ≠ Err.peerNotFound := by
  refine ⟨?_, by simp⟩
  unfold GetPeer findPeer
  simp [hget, hdec]

/-- Witness for C8: the byte string `[8]` is a truncated varint field and
fails to decode, so lookup surfaces the decode error. -/
theorem getPeer_decode_error_witness :
    GetPeer ⟨[([1], [8])], [], [], []⟩ [1] = .error (.unmarshalPeer [8]) ∧
    Err.unmarshalPeer [8] ≠ Err.peerNotFound :=
  getPeer_decode_error ⟨[([1], [8])], [], [], []⟩ [1] [8]
    (by decide) (by decide)

/-- C1: when `MakePeer` reaches the creation branch (the key has no identity
record), the new record's id is one plus the numerically largest id in the
id-index — one on an empty index — and the call fails with the "out of peer
IDs" error exactly when that increment wraps the `uint32` space to zero.
Concretely, registering `[1]` then `[2]` in an empty store yields ids 1 and
2, and re-registering `[1]` still returns id 1. -/
theorem makePeer_allocates_next_id (db : DB) (pub : PubKey)
    (hwf : WFid db.peerID) (habs : bget db.peer pub = none) :
    (maxIdNum db.peerID + 1 < 2 ^ 32 →
      MakePeer db pub = .ok (⟨maxIdNum db.peerID + 1, pub⟩,
        { db with
          peerID := bput db.peerID (putUint32 (maxIdNum db.peerID + 1)) pub
          peer := bput db.peer pub (encodePeerMsg (maxIdNum db.peerID + 1)) })) ∧
    (MakePeer db pub = .error .outOfPeerIDs ↔ maxIdNum db.peerID + 1 = 2 ^ 32) ∧
    (MakePeer ⟨[], [], [], []⟩ [1] =
      .ok (⟨1, [1]⟩, ⟨[([1], [8, 1])], [([0, 0, 0, 1], [1])], [], []⟩) ∧
     MakePeer ⟨[([1], [8, 1])], [([0, 0, 0, 1], [1])], [], []⟩ [2] =
      .ok (⟨2, [2]⟩, ⟨[([1], [8, 1]), ([2], [8, 2])],
        [([0, 0, 0, 1], [1]), ([0, 0, 0, 2], [2])], [], []⟩) ∧
     MakePeer ⟨[([1], [8, 1]), ([2], [8, 2])],
        [([0, 0, 0, 1], [1]), ([0, 0, 0, 2], [2])], [], []⟩ [1] =
      .ok (⟨1, [1]⟩, ⟨[([1], [8, 1]), ([2], [8, 2])],
        [([0, 0, 0, 1], [1]), ([0, 0, 0, 2], [2])], [], []⟩)) := by
  have hm := lastIdOf_eq_maxIdNum hwf
  have hMlt := maxIdNum_lt hwf
  refine ⟨?_, ⟨?_, ?_⟩, by decide, by decide, by decide⟩
  · intro hsmall
    have hno : (lastIdOf db.peerID + 1) % 2 ^ 32 ≠ 0 := by rw [hm]; omega
    have hok := makePeer_creation_ok habs hno
    rw [hm, Nat.mod_eq_of_lt (by omega)] at hok
    exact hok
  · intro herr
    by_contra hne
    have hno : (lastIdOf db.peerID + 1) % 2 ^ 32 ≠ 0 := by rw [hm]; omega
    rw [makePeer_creation_ok habs hno] at herr
    exact absurd herr (by simp)
  · intro hw
    have hwrap : (lastIdOf db.peerID + 1) % 2 ^ 32 = 0 := by rw [hm, hw]; simp
    exact makePeer_creation_err habs hwrap

/-- Witness for C1 at a store whose id-index holds ids 5 and 2: registering
the fresh key `[7]` allocates id 6 = max(5, 2) + 1. -/
theorem makePeer_allocates_next_id_witness :
    MakePeer ⟨[([9], [8, 5]), ([4], [8, 2])],
        [([0, 0, 0, 2], [4]), ([0, 0, 0, 5], [9])], [], []⟩ [7] =
      .ok (⟨6, [7]⟩, ⟨[([9], [8, 5]), ([4], [8, 2]), ([7], [8, 6])],
        [([0, 0, 0, 2], [4]), ([0, 0, 0, 5], [9]), ([0, 0, 0, 6], [7])],
        [], []⟩) := by
  have h := (makePeer_allocates_next_id
    ⟨[([9], [8, 5]), ([4], [8, 2])],
      [([0, 0, 0, 2], [4]), ([0, 0, 0, 5], [9])], [], []⟩ [7]
    (by decide) (by decide)).1 (by decide)
  rw [h]
  decide

/-- C5: every successful `MakePeer` — the only write of the registry —
preserves the bijection between the id-index and the identity records: both
the id-index entry and the identity record are written in the same
transaction, so each id in the index corresponds to exactly one record with
that id, and conversely.  Read-only operations return no new state. -/
theorem makePeer_preserves_registryInv (db : DB) (pub : PubKey) (p : Peer)
    (db2 : DB) (hinv : RegistryInv db) (h : MakePeer db pub = .ok (p, db2)) :
    RegistryInv db2 := by
  cases hget : GetPeer db pub with
  | ok q =>
    have hok : MakePeer db pub = .ok (q, db) := by
      unfold MakePeer
      rw [hget]
    rw [hok] at h
    simp only [Except.ok.injEq, Prod.mk.injEq] at h
    exact h.2 ▸ hinv
  | error e =>
    by_cases he : e = Err.peerNotFound
    · subst he
      have habs : bget db.peer pub = none := findPeer_notFound_iff.mp hget
      have hwf := hinv.idKeysValid
      have hmax := lastIdOf_eq_maxIdNum hwf
      have hMlt := maxIdNum_lt hwf
      by_cases hwrap : (lastIdOf db.peerID + 1) % 2 ^ 32 = 0
      · rw [makePeer_creation_err habs hwrap] at h
        exact absurd h (by simp)
      · rw [makePeer_creation_ok habs hwrap] at h
        have hidlt : (lastIdOf db.peerID + 1) % 2 ^ 32 < 2 ^ 32 :=
          Nat.mod_lt _ (by omega)
        have hidgt : (lastIdOf db.peerID + 1) % 2 ^ 32 > maxIdNum db.peerID := by
          rw [hmax]
          rw [Nat.mod_eq_of_lt (by omega)]
          omega
        have hfreshID :
            bget db.peerID (putUint32 ((lastIdOf db.peerID + 1) % 2 ^ 32)) =
              none := by
          cases hc : bget db.peerID
              (putUint32 ((lastIdOf db.peerID + 1) % 2 ^ 32)) with
          | none => rfl
          | some w =>
            have hle := mem_le_maxIdNum (bget_some_mem hc)
            rw [getUint32_putUint32] at hle
            omega
        simp only [Except.ok.injEq, Prod.mk.injEq] at h
        rw [← h.2]
        exact registryInv_extend hinv hidlt habs hfreshID
    · have herr : MakePeer db pub = .error e := by
        unfold MakePeer
        rw [hget]
        simp [he]
      rw [herr] at h
      exact absurd h (by simp)

/-- Witness for C5: registering the fresh key `[2]` in a one-record store
that satisfies the invariant yields a store that still satisfies it. -/
theorem makePeer_preserves_registryInv_witness :
    RegistryInv ⟨[([1], [8, 1]), ([2], [8, 2])],
      [([0, 0, 0, 1], [1]), ([0, 0, 0, 2], [2])], [], []⟩ :=
  makePeer_preserves_registryInv
    ⟨[([1], [8, 1])], [([0, 0, 0, 1], [1])], [], []⟩ [2] ⟨2, [2]⟩
    ⟨[([1], [8, 1]), ([2], [8, 2])],
      [([0, 0, 0, 1], [1]), ([0, 0, 0, 2], [2])], [], []⟩
    (by
      constructor
      · decide
      · decide
      · decide
      · intro kv hkv
        simp only [List.mem_singleton] at hkv
        subst hkv
        exact ⟨[8, 1], by decide, by decide⟩
      · intro kv hkv
        simp only [List.mem_singleton] at hkv
        subst hkv
        exact ⟨1, by decide, by decide, by decide⟩)
    (by decide)

/-- The backend loop surfaces the first failure: if every backend before `b`
opens and `b` fails, the loop returns `b`'s error. -/
theorem openBackends_first_error (openB : Bytes → Except Err KVHandle)
    (bs1 : List Bytes) (b : Bytes) (bs2 : List Bytes) (e : Err)
    (hok : ∀ x ∈ bs1, ∃ hh, openB x = .ok hh) (hfail : openB b = .error e) :
    openBackends openB (bs1 ++ b :: bs2) = .error e := by
  induction bs1 with
  | nil =>
    simp only [List.nil_append, openBackends]
    rw [hfail]
  | cons x xs ih =>
    obtain ⟨hx, hhx⟩ := hok x (by simp)
    have ih2 := ih (fun y hy => hok y (by simp [hy]))
    simp only [List.cons_append, openBackends, hhx, List.append_eq, ih2]

/-- A failing backend loop means some backend failed with exactly that
error. -/
theorem openBackends_error_mem {openB : Bytes → Except Err KVHandle}
    {bs : List Bytes} {e : Err} (h : openBackends openB bs = .error e) :
    ∃ x ∈ bs, openB x = .error e := by
  induction bs with
  | nil => simp [openBackends] at h
  | cons b rest ih =>
    simp only [openBackends] at h
    cases hb : openB b with
    | error e2 =>
      rw [hb] at h
      simp only [Except.error.injEq] at h
      exact ⟨b, by simp, h ▸ hb⟩
    | ok s =>
      rw [hb] at h
      cases hr : openBackends openB rest with
      | error e2 =>
        rw [hr] at h
        simp only [Except.error.injEq] at h
        obtain ⟨x, hx, hxe⟩ := ih (h ▸ hr)
        exact ⟨x, by simp [hx], hxe⟩
      | ok ss =>
        rw [hr] at h
        exact absurd h (by simp)

/-- C7: if the storage binding decodes to a backend list in which every
backend before `b` opens and `b` fails to open, `OpenKVForPeer` returns
`b`'s error — the first failure — and hence no merged handle. -/
theorem openKV_first_backend_failure (openB : Bytes → Except Err KVHandle)
    (db : DB) (pub : PubKey) (v : Bytes) (bs1 : List Bytes) (b : Bytes)
    (bs2 : List Bytes) (e : Err)
    (hget : bget db.peerStorage pub = some v)
    (hdec : decodePeerStorage v = some (bs1 ++ b :: bs2))
    (hok : ∀ x ∈ bs1, ∃ hh, openB x = .ok hh)
    (hfail : openB b = .error e) :
    OpenKVForPeer openB db pub = .error e := by
  unfold OpenKVForPeer
  rw [hget]
  simp only []
  rw [hdec]
  simp only []
  rw [openBackends_first_error openB bs1 b bs2 e hok hfail]

/-- Witness for C7: a binding naming backends `"a"` and `"b"` where `"a"`
opens and `"b"` fails makes the resolution abort with `"b"`'s error. -/
theorem openKV_first_backend_failure_witness :
    OpenKVForPeer
      (fun bb => if bb = [97] then .ok (.backend bb)
        else .error (.backendFailed bb))
      ⟨[], [], [], [([1], [10, 3, 10, 1, 97, 10, 3, 10, 1, 98])]⟩ [1] =
      .error (.backendFailed [98]) :=
  openKV_first_backend_failure
    (fun bb => if bb = [97] then .ok (.backend bb)
      else .error (.backendFailed bb))
    ⟨[], [], [], [([1], [10, 3, 10, 1, 97, 10, 3, 10, 1, 98])]⟩ [1]
    [10, 3, 10, 1, 97, 10, 3, 10, 1, 98] [[97]] [98] [] (.backendFailed [98])
    (by decide) (by decide)
    (by
      intro x hx
      simp only [List.mem_singleton] at hx
      subst hx
      exact ⟨.backend [97], rfl⟩)
    rfl

/-- C9: a storage binding that is present but references zero backends
yields a merged handle over zero backends, not `ErrNoStorageForPeer`; and as
long as the backend factory itself never returns that error, the only way
`OpenKVForPeer` produces it is an absent binding. -/
theorem openKV_empty_binding (openB : Bytes → Except Err KVHandle) (db : DB)
    (pub : PubKey) (v : Bytes)
    (hget : bget db.peerStorage pub = some v)
    (hdec : decodePeerStorage v = some []) :
    OpenKVForPeer openB db pub = .ok (.multi []) ∧
    (∀ openB2 : Bytes → Except Err KVHandle, ∀ db2 : DB, ∀ pub2 : PubKey,
      (∀ bb, openB2 bb ≠ .error Err.noStorageForPeer) →
      OpenKVForPeer openB2 db2 pub2 = .error .noStorageForPeer →
      bget db2.peerStorage pub2 = none) := by
  constructor
  · unfold OpenKVForPeer
    rw [hget]
    simp only []
    rw [hdec]
    rfl
  · intro openB2 db2 pub2 hB h
    cases hg : bget db2.peerStorage pub2 with
    | none => rfl
    | some v2 =>
      unfold OpenKVForPeer at h
      rw [hg] at h
      simp only [] at h
      cases hd : decodePeerStorage v2 with
      | none =>
        rw [hd] at h
        exact absurd h (by simp)
      | some bs =>
        rw [hd] at h
        simp only [] at h
        cases ho : openBackends openB2 bs with
        | error e =>
          rw [ho] at h
          simp only [Except.error.injEq] at h
          obtain ⟨x, _, hxe⟩ := openBackends_error_mem (h ▸ ho)
          exact absurd hxe (hB x)
        | ok ss =>
          rw [ho] at h
          exact absurd h (by simp)

/-- Witness for C9: an empty stored binding (zero encoded map entries)
resolves to the empty merged handle. -/
theorem openKV_empty_binding_witness :
    OpenKVForPeer (fun bb => .error (.backendFailed bb))
      ⟨[], [], [], [([1], [])]⟩ [1] = .ok (.multi []) :=
  (openKV_empty_binding (fun bb => .error (.backendFailed bb))
    ⟨[], [], [], [([1], [])]⟩ [1] [] (by decide) (by decide)).1

/-- C10: `OpenKVForPeer` reads only the storage-binding bucket: its outcome
is unchanged by any change to the other buckets; an absent binding — whether
or not the key is registered — gives `ErrNoStorageForPeer`; and provided the
backend factory never returns `ErrPeerNotFound`, neither does
`OpenKVForPeer`, on any input. -/
theorem openKV_depends_only_on_storage (openB : Bytes → Except Err KVHandle) :
    (∀ db db2 : DB, ∀ pub : PubKey, db.peerStorage = db2.peerStorage →
      OpenKVForPeer openB db pub = OpenKVForPeer openB db2 pub) ∧
    (∀ db : DB, ∀ pub : PubKey, bget db.peerStorage pub = none →
      OpenKVForPeer openB db pub = .error .noStorageForPeer) ∧
    (∀ db : DB, ∀ pub : PubKey,
      (∀ bb, openB bb ≠ .error Err.peerNotFound) →
      OpenKVForPeer openB db pub ≠ .error .peerNotFound) := by
  refine ⟨?_, ?_, ?_⟩
  · intro db db2 pub h
    unfold OpenKVForPeer
    rw [h]
  · intro db pub h
    unfold OpenKVForPeer
    rw [h]
  · intro db pub hB h
    cases hg : bget db.peerStorage pub with
    | none =>
      unfold OpenKVForPeer at h
      rw [hg] at h
      exact absurd h (by simp)
    | some v2 =>
      unfold OpenKVForPeer at h
      rw [hg] at h
      simp only [] at h
      cases hd : decodePeerStorage v2 with
      | none =>
        rw [hd] at h
        exact absurd h (by simp)
      | some bs =>
        rw [hd] at h
        simp only [] at h
        cases ho : openBackends openB bs with
        | error e =>
          rw [ho] at h
          simp only [Except.error.injEq] at h
          obtain ⟨x, _, hxe⟩ := openBackends_error_mem (h ▸ ho)
          exact absurd hxe (hB x)
        | ok ss =>
          rw [ho] at h
          exact absurd h (by simp)

/-- Witness for C10: a store that registers key `[5]` but has no storage
binding for it gets `ErrNoStorageForPeer`, not `ErrPeerNotFound`. -/
theorem openKV_depends_only_on_storage_witness :
    OpenKVForPeer (fun bb => .ok (.backend bb))
      ⟨[([5], [8, 1])], [([0, 0, 0, 1], [5])], [], []⟩ [5] =
      .error .noStorageForPeer :=
  (openKV_depends_only_on_storage (fun bb => .ok (.backend bb))).2.1
    ⟨[([5], [8, 1])], [([0, 0, 0, 1], [5])], [], []⟩ [5] (by decide)

/-- C2 (handshake modelled from the spec, see `credentialHandshake` /
`dialAttempt`): the credential built by `DialPeer` pins the dial target's
public key: whenever the far end presents a key differing byte-for-byte
from it, no dial attempt yields a usable connection — whatever the state of
the registry or of the cryptographic validation — and when an address
resolves and the cryptographic validation passes, the failure is precisely
the identity-mismatch handshake error. -/
theorem dialPeer_pins_identity (db : DB) (pub presented : PubKey)
    (network nominalAddr : Bytes) (cryptoOK : Bool)
    (hne : presented ≠ pub) :
    (dialAttempt db pub network nominalAddr presented cryptoOK).result.usable
      = false ∧
    (∀ addr, bget db.peerAddr pub = some addr → cryptoOK = true →
      dialAttempt db pub network nominalAddr presented cryptoOK =
        ⟨true, .failed .handshakeIdentityMismatch⟩) := by
  unfold dialAttempt dialLookup credentialHandshake
  cases hg : bget db.peerAddr pub with
  | none =>
    refine ⟨rfl, ?_⟩
    intro addr haddr
    exact absurd haddr (by simp)
  | some val =>
    simp only []
    cases cryptoOK with
    | false => exact ⟨rfl, fun addr _ hc => absurd hc (by simp)⟩
    | true =>
      simp only [if_pos rfl]
      rw [if_neg hne]
      exact ⟨rfl, fun addr _ _ => rfl⟩

/-- Witness for C2: with the address of peer `[1]` on file, a far end
presenting key `[2]` fails the handshake with the identity-mismatch error
even though cryptographic validation passed, and the connection is unusable. -/
theorem dialPeer_pins_identity_witness :
    dialAttempt ⟨[], [], [([1], [104])], []⟩ [1] [116] [0] [2] true =
      ⟨true, .failed .handshakeIdentityMismatch⟩ :=
  (dialPeer_pins_identity ⟨[], [], [([1], [104])], []⟩ [1] [2] [116] [0] true
    (by decide)).2 [104] (by decide) rfl

/-- C6 (dial sequencing modelled from the spec, see `dialAttempt`): when no
address is bound for the key, the registry lookup built by `DialPeer` fails
with the no-address error, the dial attempt fails with that same error
before any network connection is attempted, and there is no internal retry —
`dialAttempt` is a single pass. -/
theorem dialPeer_address_unknown (db : DB) (pub presented : PubKey)
    (network nominalAddr : Bytes) (cryptoOK : Bool)
    (h : bget db.peerAddr pub = none) :
    dialLookup db pub network nominalAddr = .error .noAddrKnown ∧
    dialAttempt db pub network nominalAddr presented cryptoOK =
      ⟨false, .failed .noAddrKnown⟩ := by
  have hl : dialLookup db pub network nominalAddr = .error .noAddrKnown := by
    unfold dialLookup
    rw [h]
  refine ⟨hl, ?_⟩
  unfold dialAttempt
  rw [hl]

/-- Witness for C6: dialling key `[1]` against a store with no address
bindings fails with the no-address error and no connection attempt. -/
theorem dialPeer_address_unknown_witness :
    dialAttempt ⟨[], [], [], []⟩ [1] [116] [0] [2] true =
      ⟨false, .failed .noAddrKnown⟩ :=
  (dialPeer_address_unknown ⟨[], [], [], []⟩ [1] [2] [116] [0] true
    (by decide)).2
